import Mathlib

/-!
Shallow embedding of src/washing_out.py: the functions update, random_update
and washing_out, over exact rationals.

Modelling conventions:
* a numpy array is a list of rows, of type List (List Rat);
* a raised Python exception is an Except.error carrying a PyError tag;
* floating-point arithmetic is idealised as exact rational arithmetic; a
  division whose denominator is zero (which numpy turns into NaN or inf
  while still returning an array, without raising) is represented by Rat
  division, which returns 0 on a zero denominator — under both semantics
  the call returns a value rather than failing;
* the call to the global random source inside random.choices is
  parametrised by an explicit draw r (the value random.random() would
  produce), and a run of washing_out by the list of such draws, one per
  repetition of the experiment;
* a matrix with zero rows loses its column count in the list-of-rows
  representation (a numpy array of shape (0, m) keeps m), so the theorems
  below assume at least one hypothesis row, as every claim does.
-/

abbrev Mat : Type := List (List ℚ)

/-- Entry (i, j) of a matrix, read as 0 outside its bounds. -/
def entry (A : Mat) (i j : ℕ) : ℚ := (A.getD i []).getD j 0

/-- Well-formedness: A is an n-by-k matrix (n rows, each of length k). -/
def Mat.WF (A : Mat) (n k : ℕ) : Prop := A.length = n ∧ ∀ r ∈ A, r.length = k

/-- Python exceptions that the embedded code can raise. -/
inductive PyError : Type
  | indexError
  | broadcastError
  | valueError
deriving DecidableEq

/-- The expression likelihoods_matrix[:, [outcome]] of the source: numpy
column selection, honouring Python negative indexing (an index o with
-m ≤ o < 0 selects column m + o) and raising IndexError when the index is
out of range. The selected n-by-1 column is returned as a flat list. -/
def getCol (L : Mat) (o : ℤ) : Except PyError (List ℚ) :=
  let m : ℤ := ((L.headD []).length : ℤ)
  if o < -m ∨ m ≤ o then .error .indexError
  else
    let eff : ℕ := (if o < 0 then o + m else o).toNat
    .ok (L.map (fun row => row.getD eff 0))

/-- The expression priors_matrix * likelihoods_matrix[:, [outcome]] of the
source: numpy broadcasting product of an n-by-k matrix with a column of
length n2. The row dimensions are compatible when n = n2 or either of them
is 1 (the length-1 one is then repeated); otherwise numpy raises
ValueError (operands could not be broadcast together). -/
def bmul (P : Mat) (c : List ℚ) : Except PyError Mat :=
  if P.length = c.length then
    .ok (List.zipWith (fun row x => row.map (fun a => a * x)) P c)
  else if c.length = 1 then
    .ok (P.map (fun row => row.map (fun a => a * c.getD 0 0)))
  else if P.length = 1 then
    .ok (c.map (fun x => (P.getD 0 []).map (fun a => a * x)))
  else .error .broadcastError

/-- The expression sum(unnormalized) of the source: the Python builtin sum
iterates over the rows of the array, yielding the vector of column sums
(and the scalar 0, i.e. the empty vector here, for an array with no rows). -/
def colSums (A : Mat) : List ℚ :=
  match A with
  | [] => []
  | r :: rs => rs.foldl (fun acc row => List.zipWith (fun a b => a + b) acc row) r

/-- The function update of src/washing_out.py: elementwise product of the
priors with the likelihood column of the realized outcome, then division of
each row by the vector of column sums (numpy broadcasting). An exception in
a subexpression propagates, as in Python. -/
def update (priors_matrix likelihoods_matrix : Mat) (outcome : ℤ) :
    Except PyError Mat :=
  match getCol likelihoods_matrix outcome with
  | .error e => .error e
  | .ok col =>
    match bmul priors_matrix col with
    | .error e => .error e
    | .ok unnormalized =>
      .ok (unnormalized.map (fun row =>
        List.zipWith (fun a b => a / b) row (colSums unnormalized)))

/-- Cumulative sums itertools.accumulate(weights) starting from acc. -/
def accumFrom (acc : ℚ) : List ℚ → List ℚ
  | [] => []
  | w :: ws => (acc + w) :: accumFrom (acc + w) ws

/-- cum_weights = list(accumulate(weights)) inside random.choices. -/
def cumWeights (ws : List ℚ) : List ℚ := accumFrom 0 ws

/-- The loop of bisect.bisect_right(a, x, lo, hi), with fuel to make the
recursion structural; fuel hi - lo + 1 is enough since the interval
strictly shrinks at every step. -/
def bisectAux (a : List ℚ) (x : ℚ) : ℕ → ℕ → ℕ → ℕ
  | 0, lo, _ => lo
  | fuel + 1, lo, hi =>
    if lo < hi then
      let mid := (lo + hi) / 2
      if x < a.getD mid 0 then bisectAux a x fuel lo mid
      else bisectAux a x fuel (mid + 1) hi
    else lo

/-- bisect.bisect_right(a, x, lo, hi) as called by random.choices. -/
def bisectRight (a : List ℚ) (x : ℚ) (lo hi : ℕ) : ℕ := bisectAux a x (hi + 1) lo hi

/-- The function random_update of src/washing_out.py, with the CPython
semantics of random.choices(range(num_outcomes), true_likelihoods, k=1)
inlined: build the cumulative weights, raise ValueError when the number of
weights differs from the population size or the total weight is not
positive, then pick index bisect_right(cum_weights, r * total, 0, m - 1)
where r is the uniform draw in [0, 1). (CPython raises IndexError rather
than ValueError in the single corner case of an empty population with an
empty weight list; no theorem below depends on an empty outcome space.) -/
def random_update (priors_matrix likelihoods_matrix : Mat)
    (true_likelihoods : List ℚ) (r : ℚ) : Except PyError Mat :=
  let num_outcomes := (likelihoods_matrix.headD []).length
  if true_likelihoods.length ≠ num_outcomes then .error .valueError
  else
    let cum := cumWeights true_likelihoods
    let total := cum.getLastD 0
    if total ≤ 0 then .error .valueError
    else
      let outcome := bisectRight cum (r * total) 0 (num_outcomes - 1)
      update priors_matrix likelihoods_matrix (outcome : ℤ)

/-- The function washing_out of src/washing_out.py: starting from the
priors, repeatedly draw an outcome and update, collecting every belief
state. The source keeps the list slices = [priors_matrix] and appends one
posterior per repetition; here the repetitions are driven by the list of
uniform draws rands (one entry per repetition), and an exception inside
random_update aborts the whole call, exactly as in Python. The source
finally passes the list to np.stack, which only reshapes; the list of
snapshots itself is returned here. -/
def washing_out (priors_matrix likelihoods_matrix : Mat)
    (true_likelihoods : List ℚ) (rands : List ℚ) : Except PyError (List Mat) :=
  match rands with
  | [] => .ok [priors_matrix]
  | r :: rest =>
    match random_update priors_matrix likelihoods_matrix true_likelihoods r with
    | .error e => .error e
    | .ok next =>
      match washing_out next likelihoods_matrix true_likelihoods rest with
      | .error e => .error e
      | .ok tail => .ok (priors_matrix :: tail)

/-- Unnormalized posterior entry, transcribed from the spec: prior(i, j)
times likelihood(i, outcome). -/
def unnormEntry (P L : Mat) (o i j : ℕ) : ℚ := entry P i j * entry L i o

/-- Column sum of the unnormalized posterior, transcribed from the spec:
the sum over all hypotheses i of prior(i, j) times likelihood(i, outcome). -/
def colSumQ (P L : Mat) (o j : ℕ) : ℚ :=
  ((List.range P.length).map (fun i => unnormEntry P L o i j)).sum

/-- Reference update transcribed from the words of the spec, for the
refinement claim: entry (i, j) of the result is the unnormalized posterior
divided by the column sum of agent j. The column count k is passed
explicitly. -/
def refUpdate (P L : Mat) (o k : ℕ) : Mat :=
  (List.range P.length).map (fun i =>
    (List.range k).map (fun j => unnormEntry P L o i j / colSumQ P L o j))

/-- Multiplication of every entry of a matrix by a scalar c. -/
def scaleMat (c : ℚ) (P : Mat) : Mat := P.map (fun row => row.map (fun a => c * a))

/-- Multiplication of the entry at position o of a list by a scalar c. -/
def scaleAt (c : ℚ) : ℕ → List ℚ → List ℚ
  | _, [] => []
  | 0, x :: xs => (c * x) :: xs
  | j + 1, x :: xs => x :: scaleAt c j xs

/-- Elementwise product of the priors with the selected likelihood column,
as computed inside update when the row counts agree. -/
def unnormMat (P L : Mat) (o : ℕ) : Mat :=
  List.zipWith (fun row x => row.map (fun a => a * x)) P (L.map (fun row => row.getD o 0))

/-- Normalization step of update: divide every row by the column sums. -/
def normMat (u : Mat) : Mat :=
  u.map (fun row => List.zipWith (fun a b => a / b) row (colSums u))

theorem headD_length {L : Mat} {n m : ℕ} (hL : Mat.WF L n m) (hn : 0 < n) :
    (L.headD []).length = m := by
  rcases L with _ | ⟨r, rs⟩
  · rcases hL with ⟨h1, _⟩
    simp at h1
    omega
  · exact hL.2 r (List.mem_cons_self r rs)

theorem getD_map_lt {α β : Type} (f : α → β) (d : α) (e : β) :
    ∀ (l : List α) (i : ℕ), i < l.length → (l.map f).getD i e = f (l.getD i d)
  | _ :: _, 0, _ => rfl
  | _ :: l, i + 1, h => by
    simp only [List.map_cons, List.getD_cons_succ]
    exact getD_map_lt f d e l i (by simpa using h)

theorem getD_zipWith_lt {α β γ : Type} (f : α → β → γ) (d1 : α) (d2 : β) (e : γ) :
    ∀ (l1 : List α) (l2 : List β) (i : ℕ), i < l1.length → i < l2.length →
      (List.zipWith f l1 l2).getD i e = f (l1.getD i d1) (l2.getD i d2)
  | _ :: _, _ :: _, 0, _, _ => rfl
  | _ :: l1, _ :: l2, i + 1, h1, h2 => by
    simp only [List.zipWith_cons_cons, List.getD_cons_succ]
    exact getD_zipWith_lt f d1 d2 e l1 l2 i (by simpa using h1) (by simpa using h2)

theorem getD_range_lt : ∀ {n i : ℕ}, i < n → ∀ d, (List.range n).getD i d = i := by
  intro n
  induction n with
  | zero => intro i h d; omega
  | succ n ih =>
    intro i h d
    rw [List.range_succ_eq_map]
    cases i with
    | zero => rfl
    | succ i =>
      rw [List.getD_cons_succ,
        getD_map_lt Nat.succ 0 d (List.range n) i (by simpa using (by omega : i < n)),
        ih (by omega) 0]

theorem getD_mem {α : Type} : ∀ (l : List α) (i : ℕ), i < l.length → ∀ d, l.getD i d ∈ l
  | a :: l, 0, _, _ => List.mem_cons_self a l
  | a :: l, i + 1, h, d => List.mem_cons_of_mem a (getD_mem l i (by simpa using h) d)

theorem range_map_getD_sum {α : Type} (d : α) (g : α → ℚ) :
    ∀ l : List α, ((List.range l.length).map (fun i => g (l.getD i d))).sum = (l.map g).sum
  | [] => by simp
  | a :: l => by
    rw [List.length_cons, List.range_succ_eq_map, List.map_cons, List.map_map, List.sum_cons,
      List.map_cons, List.sum_cons]
    have hcomp : (List.range l.length).map ((fun i => g ((a :: l).getD i d)) ∘ Nat.succ)
        = (List.range l.length).map (fun i => g (l.getD i d)) := by
      apply List.map_congr_left
      intro x _
      rfl
    rw [hcomp, range_map_getD_sum d g l]
    rfl

theorem foldl_addRows_length (k : ℕ) :
    ∀ (rs : List (List ℚ)) (acc : List ℚ), (∀ r ∈ rs, r.length = k) → acc.length = k →
      (rs.foldl (fun a r => List.zipWith (fun x y => x + y) a r) acc).length = k
  | [], _, _, ha => ha
  | r :: rs, acc, hr, ha => by
    have hrk : r.length = k := hr r (List.mem_cons_self r rs)
    have hlen : (List.zipWith (fun x y => x + y) acc r).length = k := by
      simp [List.length_zipWith, ha, hrk]
    exact foldl_addRows_length k rs _ (fun x hx => hr x (List.mem_cons_of_mem r hx)) hlen

theorem foldl_addRows_getD (k : ℕ) :
    ∀ (rs : List (List ℚ)) (acc : List ℚ), (∀ r ∈ rs, r.length = k) → acc.length = k →
      ∀ j, j < k →
      (rs.foldl (fun a r => List.zipWith (fun x y => x + y) a r) acc).getD j 0
        = acc.getD j 0 + (rs.map (fun r => r.getD j 0)).sum
  | [], _, _, _, j, _ => by simp
  | r :: rs, acc, hr, ha, j, hj => by
    have hrk : r.length = k := hr r (List.mem_cons_self r rs)
    have hlen : (List.zipWith (fun x y => x + y) acc r).length = k := by
      simp [List.length_zipWith, ha, hrk]
    have ih := foldl_addRows_getD k rs (List.zipWith (fun x y => x + y) acc r)
      (fun x hx => hr x (List.mem_cons_of_mem r hx)) hlen j hj
    simp only [List.foldl_cons, List.map_cons, List.sum_cons]
    rw [ih, getD_zipWith_lt _ 0 0 0 acc r j (by omega) (by omega)]
    ring

theorem colSums_length {u : Mat} {n k : ℕ} (hu : Mat.WF u n k) (hn : 0 < n) :
    (colSums u).length = k := by
  rcases u with _ | ⟨r, rs⟩
  · rcases hu with ⟨h1, _⟩
    simp at h1
    omega
  · exact foldl_addRows_length k rs r
      (fun x hx => hu.2 x (List.mem_cons_of_mem r hx)) (hu.2 r (List.mem_cons_self r rs))

theorem colSums_getD {u : Mat} {n k : ℕ} (hu : Mat.WF u n k) (hn : 0 < n)
    {j : ℕ} (hj : j < k) :
    (colSums u).getD j 0 = (u.map (fun r => r.getD j 0)).sum := by
  rcases u with _ | ⟨r, rs⟩
  · rcases hu with ⟨h1, _⟩
    simp at h1
    omega
  · show (rs.foldl (fun a r => List.zipWith (fun x y => x + y) a r) r).getD j 0 = _
    rw [foldl_addRows_getD k rs r
      (fun x hx => hu.2 x (List.mem_cons_of_mem r hx)) (hu.2 r (List.mem_cons_self r rs)) j hj]
    simp

theorem getCol_ok_raw {L : Mat} {o : ℕ} (ho : o < (L.headD []).length) :
    getCol L (o : ℤ) = .ok (L.map (fun row => row.getD o 0)) := by
  simp only [getCol]
  rw [if_neg (by omega)]
  have heff :
      ((if (o : ℤ) < 0 then (o : ℤ) + ((L.headD []).length : ℤ) else (o : ℤ)).toNat) = o := by
    rw [if_neg (by omega)]
    exact Int.toNat_natCast o
  rw [heff]

theorem getCol_ok {L : Mat} {n m : ℕ} (hL : Mat.WF L n m) (hn : 0 < n)
    {o : ℕ} (ho : o < m) :
    getCol L (o : ℤ) = .ok (L.map (fun row => row.getD o 0)) := by
  have hm := headD_length hL hn
  exact getCol_ok_raw (by omega)

theorem bmul_eq_of_len {P : Mat} {c : List ℚ} (h : P.length = c.length) :
    bmul P c = .ok (List.zipWith (fun row x => row.map (fun a => a * x)) P c) := by
  simp [bmul, h]

theorem unnormMat_WF {P L : Mat} {n k m : ℕ} (hP : Mat.WF P n k) (hL : Mat.WF L n m)
    (o : ℕ) : Mat.WF (unnormMat P L o) n k := by
  constructor
  · simp [unnormMat, List.length_zipWith, hP.1, hL.1]
  · intro r hr
    rw [List.mem_iff_getElem] at hr
    obtain ⟨i, hi, rfl⟩ := hr
    unfold unnormMat at hi ⊢
    rw [List.getElem_zipWith]
    simp only [List.length_map]
    exact hP.2 _ (List.getElem_mem _)

theorem unnormMat_entry {P L : Mat} {n k m : ℕ} (hP : Mat.WF P n k) (hL : Mat.WF L n m)
    {o i j : ℕ} (hi : i < n) (hj : j < k) :
    ((unnormMat P L o).getD i []).getD j 0 = unnormEntry P L o i j := by
  have h1 := hP.1
  have h2 := hL.1
  have hiP : i < P.length := by omega
  have hiL : i < (L.map (fun row => row.getD o 0)).length := by
    simp only [List.length_map]
    omega
  unfold unnormMat
  rw [getD_zipWith_lt (fun row x => row.map (fun a => a * x)) [] 0 [] P _ i hiP hiL]
  rw [getD_map_lt (fun row => row.getD o 0) [] 0 L i (by omega)]
  rw [getD_map_lt (fun a => a * (L.getD i []).getD o 0) 0 0 (P.getD i []) j
    (by rw [hP.2 (P.getD i []) (getD_mem P i hiP [])]; omega)]
  rfl

theorem colSums_unnormMat {P L : Mat} {n k m : ℕ} (hP : Mat.WF P n k) (hL : Mat.WF L n m)
    (hn : 0 < n) {o j : ℕ} (hj : j < k) :
    (colSums (unnormMat P L o)).getD j 0 = colSumQ P L o j := by
  have hu : Mat.WF (unnormMat P L o) n k := unnormMat_WF hP hL o
  rw [colSums_getD hu hn hj,
    ← range_map_getD_sum ([] : List ℚ) (fun r => r.getD j 0) (unnormMat P L o)]
  unfold colSumQ
  have hlen : (unnormMat P L o).length = P.length := by rw [hu.1, hP.1]
  rw [hlen]
  apply congrArg List.sum
  apply List.map_congr_left
  intro i hi
  rw [List.mem_range] at hi
  have h1 := hP.1
  exact unnormMat_entry hP hL (by omega) hj

theorem normMat_WF {u : Mat} {n k : ℕ} (hu : Mat.WF u n k) (hn : 0 < n) :
    Mat.WF (normMat u) n k := by
  constructor
  · simp [normMat, hu.1]
  · intro r hr
    unfold normMat at hr
    rw [List.mem_map] at hr
    obtain ⟨row, hrow, rfl⟩ := hr
    rw [List.length_zipWith, hu.2 row hrow, colSums_length hu hn]
    omega

theorem normMat_entry {u : Mat} {n k : ℕ} (hu : Mat.WF u n k) (hn : 0 < n)
    {i j : ℕ} (hi : i < n) (hj : j < k) :
    ((normMat u).getD i []).getD j 0 = (u.getD i []).getD j 0 / (colSums u).getD j 0 := by
  have h1 := hu.1
  unfold normMat
  rw [getD_map_lt (fun row => List.zipWith (fun a b => a / b) row (colSums u)) [] [] u i
    (by omega)]
  rw [getD_zipWith_lt (fun a b => a / b) 0 0 0 (u.getD i []) (colSums u) j
    (by rw [hu.2 (u.getD i []) (getD_mem u i (by omega) [])]; omega)
    (by rw [colSums_length hu hn]; omega)]

theorem refUpdate_WF (P L : Mat) (o k : ℕ) : Mat.WF (refUpdate P L o k) P.length k := by
  constructor
  · simp [refUpdate]
  · intro r hr
    unfold refUpdate at hr
    rw [List.mem_map] at hr
    obtain ⟨i, _, rfl⟩ := hr
    simp

theorem refUpdate_entry {P L : Mat} {o k i j : ℕ} (hi : i < P.length) (hj : j < k) :
    ((refUpdate P L o k).getD i []).getD j 0 = unnormEntry P L o i j / colSumQ P L o j := by
  unfold refUpdate
  rw [getD_map_lt
    (fun i => (List.range k).map (fun j => unnormEntry P L o i j / colSumQ P L o j)) 0 []
    (List.range P.length) i (by simpa using hi)]
  rw [getD_range_lt hi 0]
  rw [getD_map_lt (fun j => unnormEntry P L o i j / colSumQ P L o j) 0 0
    (List.range k) j (by simpa using hj)]
  rw [getD_range_lt hj 0]

theorem getD_eq_get {α : Type} :
    ∀ (l : List α) (i : ℕ) (h : i < l.length) (d : α), l.getD i d = l[i]
  | _ :: _, 0, _, _ => rfl
  | _ :: l, i + 1, h, d => by
    rw [List.getD_cons_succ]
    exact getD_eq_get l i (by simpa using h) d

theorem mat_eq_of_entry {A B : Mat} {n k : ℕ} (hA : Mat.WF A n k) (hB : Mat.WF B n k)
    (h : ∀ i, i < n → ∀ j, j < k → (A.getD i []).getD j 0 = (B.getD i []).getD j 0) :
    A = B := by
  have hA1 := hA.1
  have hB1 := hB.1
  apply List.ext_getElem (by omega)
  intro i h1 h2
  have hrA : A[i].length = k := hA.2 _ (List.getElem_mem h1)
  have hrB : B[i].length = k := hB.2 _ (List.getElem_mem h2)
  apply List.ext_getElem (by omega)
  intro j hj1 hj2
  have hij := h i (by omega) j (by omega)
  rw [getD_eq_get A i (by omega) [], getD_eq_get B i (by omega) []] at hij
  rw [getD_eq_get (A[i]) j (by omega) 0, getD_eq_get (B[i]) j (by omega) 0] at hij
  exact hij

theorem update_eq_ok {P L : Mat} {n k m : ℕ} (hP : Mat.WF P n k) (hL : Mat.WF L n m)
    (hn : 0 < n) {o : ℕ} (ho : o < m) :
    update P L (o : ℤ) = .ok (normMat (unnormMat P L o)) := by
  have h1 := getCol_ok hL hn ho
  have h2 : bmul P (L.map (fun row => row.getD o 0)) = .ok (unnormMat P L o) :=
    bmul_eq_of_len (by simp [hP.1, hL.1])
  simp only [update, h1, h2, normMat]

theorem update_ok {P L : Mat} {n k m : ℕ} (hP : Mat.WF P n k) (hL : Mat.WF L n m)
    (hn : 0 < n) {o : ℕ} (ho : o < m) :
    update P L (o : ℤ) = .ok (refUpdate P L o k) := by
  rw [update_eq_ok hP hL hn ho]
  have hu := unnormMat_WF hP hL o
  have href : Mat.WF (refUpdate P L o k) n k := hP.1 ▸ refUpdate_WF P L o k
  have heq : normMat (unnormMat P L o) = refUpdate P L o k := by
    apply mat_eq_of_entry (normMat_WF hu hn) href
    intro i hi j hj
    rw [normMat_entry hu hn hi hj, unnormMat_entry hP hL hi hj,
      colSums_unnormMat hP hL hn hj, refUpdate_entry (by rw [hP.1]; omega) hj]
  rw [heq]

theorem accumFrom_getLastD :
    ∀ (ws : List ℚ) (acc d : ℚ),
      (accumFrom acc ws).getLastD d = if ws = [] then d else acc + ws.sum
  | [], _, _ => rfl
  | w :: ws, acc, d => by
    show ((acc + w) :: accumFrom (acc + w) ws).getLastD d = _
    rw [List.getLastD_cons, accumFrom_getLastD ws (acc + w) (acc + w)]
    rcases eq_or_ne ws [] with h | h
    · simp [h]
    · rw [if_neg h, if_neg (List.cons_ne_nil w ws), List.sum_cons]
      ring

theorem bisectAux_le (a : List ℚ) (x : ℚ) :
    ∀ (fuel lo hi : ℕ), lo ≤ hi → bisectAux a x fuel lo hi ≤ hi := by
  intro fuel
  induction fuel with
  | zero => intro lo hi h; exact h
  | succ fuel ih =>
    intro lo hi h
    simp only [bisectAux]
    by_cases hlt : lo < hi
    · rw [if_pos hlt]
      by_cases hx : x < a.getD ((lo + hi) / 2) 0
      · rw [if_pos hx]
        exact le_trans (ih lo ((lo + hi) / 2) (by omega)) (by omega)
      · rw [if_neg hx]
        exact ih ((lo + hi) / 2 + 1) hi (by omega)
    · rw [if_neg hlt]
      exact h

theorem random_update_ok {P L : Mat} {n k m : ℕ} {tl : List ℚ} (hP : Mat.WF P n k)
    (hL : Mat.WF L n m) (hn : 0 < n) (htl : tl.length = m) (hsum : 0 < tl.sum) (r : ℚ) :
    ∃ o : ℕ, o < m ∧
      random_update P L tl r = update P L (o : ℤ) ∧
      random_update P L tl r = .ok (refUpdate P L o k) := by
  have hm := headD_length hL hn
  have hne : tl ≠ [] := by
    intro h
    rw [h] at hsum
    simp at hsum
  have hm1 : 1 ≤ m := by
    have := List.length_pos.mpr hne
    omega
  have htot : (cumWeights tl).getLastD 0 = tl.sum := by
    unfold cumWeights
    rw [accumFrom_getLastD tl 0 0, if_neg hne, zero_add]
  have hupd :
      random_update P L tl r
        = update P L ((bisectRight (cumWeights tl) (r * tl.sum) 0 (m - 1) : ℕ) : ℤ) := by
    simp only [random_update, hm, htot]
    rw [if_neg (by omega), if_neg (not_le.mpr hsum)]
  refine ⟨bisectRight (cumWeights tl) (r * tl.sum) 0 (m - 1), ?_, hupd, ?_⟩
  · have := bisectAux_le (cumWeights tl) (r * tl.sum) (m - 1 + 1) 0 (m - 1) (by omega)
    unfold bisectRight
    omega
  · rw [hupd]
    exact update_ok hP hL hn
      (by
        have := bisectAux_le (cumWeights tl) (r * tl.sum) (m - 1 + 1) 0 (m - 1) (by omega)
        unfold bisectRight
        omega)

theorem washing_out_ok {L : Mat} {n k m : ℕ} {tl : List ℚ}
    (hL : Mat.WF L n m) (hn : 0 < n) (htl : tl.length = m) (hsum : 0 < tl.sum) :
    ∀ (rands : List ℚ) (P : Mat), Mat.WF P n k →
      ∃ traj : List Mat,
        washing_out P L tl rands = .ok traj ∧
        traj.length = rands.length + 1 ∧
        traj.getD 0 [] = P ∧
        (∀ M ∈ traj, Mat.WF M n k) ∧
        (∀ t, t < rands.length → ∃ o : ℕ, o < m ∧
          update (traj.getD t []) L (o : ℤ) = .ok (traj.getD (t + 1) [])) ∧
        (∀ i, i < n → ∀ j, j < k → entry P i j = 0 → ∀ M ∈ traj, entry M i j = 0) := by
  intro rands
  induction rands with
  | nil =>
    intro P hP
    refine ⟨[P], rfl, rfl, rfl, ?_, ?_, ?_⟩
    · intro M hM
      rw [List.mem_singleton] at hM
      rw [hM]
      exact hP
    · intro t ht
      simp at ht
    · intro i _ j _ h0 M hM
      rw [List.mem_singleton] at hM
      rw [hM]
      exact h0
  | cons r rest ih =>
    intro P hP
    obtain ⟨o, hom, hre, hrok⟩ := random_update_ok hP hL hn htl hsum r
    have hnextWF : Mat.WF (refUpdate P L o k) n k := hP.1 ▸ refUpdate_WF P L o k
    obtain ⟨traj, h1, h2, h3, h4, h5, h6⟩ := ih (refUpdate P L o k) hnextWF
    refine ⟨P :: traj, ?_, ?_, rfl, ?_, ?_, ?_⟩
    · simp only [washing_out, hrok, h1]
    · simp [h2]
    · intro M hM
      rcases List.mem_cons.mp hM with rfl | hM'
      · exact hP
      · exact h4 M hM'
    · intro t ht
      cases t with
      | zero =>
        refine ⟨o, hom, ?_⟩
        rw [List.getD_cons_zero, show (1 : ℕ) = 0 + 1 from rfl, List.getD_cons_succ, h3]
        exact hre.symm.trans hrok
      | succ t =>
        obtain ⟨o2, ho2, hu2⟩ := h5 t (by simpa using ht)
        exact ⟨o2, ho2, by simpa using hu2⟩
    · intro i hi j hj h0 M hM
      rcases List.mem_cons.mp hM with rfl | hM'
      · exact h0
      · apply h6 i hi j hj ?_ M hM'
        show ((refUpdate P L o k).getD i []).getD j 0 = 0
        rw [refUpdate_entry (by rw [hP.1]; omega) hj]
        unfold unnormEntry
        rw [show entry P i j = 0 from h0, zero_mul, zero_div]

/-- C1: for every n-by-k priors matrix, n-by-m likelihoods matrix and outcome
index o in [0, m), update returns exactly the reference matrix transcribed
from the spec: entry (i, j) of the result is prior(i, j) times
likelihood(i, o), divided by the sum over all hypotheses of that product for
agent j. The concrete example of the spec is checked in the witness. -/
theorem update_matches_spec {P L : Mat} {n k m : ℕ} (hP : Mat.WF P n k)
    (hL : Mat.WF L n m) (hn : 0 < n) {o : ℕ} (ho : o < m) :
    update P L (o : ℤ) = .ok (refUpdate P L o k) :=
  update_ok hP hL hn ho

theorem update_matches_spec_witness :
    update [[(1:ℚ)/2],[1/2]] [[4/5,1/5],[1/5,4/5]] ((0:ℕ) : ℤ)
      = .ok (refUpdate [[(1:ℚ)/2],[1/2]] [[4/5,1/5],[1/5,4/5]] 0 1)
    ∧ refUpdate [[(1:ℚ)/2],[1/2]] [[4/5,1/5],[1/5,4/5]] 0 1 = [[4/5],[1/5]]
    ∧ unnormEntry [[(1:ℚ)/2],[1/2]] [[4/5,1/5],[1/5,4/5]] 0 0 0 = 2/5
    ∧ unnormEntry [[(1:ℚ)/2],[1/2]] [[4/5,1/5],[1/5,4/5]] 0 1 0 = 1/10 :=
  ⟨@update_matches_spec [[(1:ℚ)/2],[1/2]] [[4/5,1/5],[1/5,4/5]] 2 1 2
      (by unfold Mat.WF; decide) (by unfold Mat.WF; decide) (by decide) 0 (by decide),
    by norm_num [refUpdate, unnormEntry, colSumQ, entry, List.range_succ],
    by norm_num [unnormEntry, entry],
    by norm_num [unnormEntry, entry]⟩

/-- C2: for every priors matrix with non-negative entries whose columns each
sum to 1, every likelihoods matrix with non-negative entries, and every
outcome index in range whose unnormalized columns all have nonzero sum, the
matrix returned by update is n-by-k, has non-negative entries, and every
agent column sums to exactly 1 (exact rational arithmetic stands in for the
floating tolerance). -/
theorem update_column_stochastic {P L : Mat} {n k m : ℕ} (hP : Mat.WF P n k)
    (hL : Mat.WF L n m) (hn : 0 < n) {o : ℕ} (ho : o < m)
    (hPnn : ∀ i, i < n → ∀ j, j < k → 0 ≤ entry P i j)
    (_hP1 : ∀ j, j < k → ((List.range n).map (fun i => entry P i j)).sum = 1)
    (hLnn : ∀ i, i < n → ∀ o2, o2 < m → 0 ≤ entry L i o2)
    (hS : ∀ j, j < k → colSumQ P L o j ≠ 0) :
    ∃ R : Mat, update P L (o : ℤ) = .ok R ∧ Mat.WF R n k ∧
      (∀ j, j < k → ((List.range n).map (fun i => entry R i j)).sum = 1) ∧
      (∀ i, i < n → ∀ j, j < k → 0 ≤ entry R i j) := by
  have h1 := hP.1
  have hSnn : ∀ j, j < k → 0 ≤ colSumQ P L o j := by
    intro j hj
    unfold colSumQ
    apply List.sum_nonneg
    intro x hx
    rw [List.mem_map] at hx
    obtain ⟨i, hi, rfl⟩ := hx
    rw [List.mem_range] at hi
    unfold unnormEntry
    exact mul_nonneg (hPnn i (by omega) j hj) (hLnn i (by omega) o ho)
  refine ⟨refUpdate P L o k, update_ok hP hL hn ho, hP.1 ▸ refUpdate_WF P L o k, ?_, ?_⟩
  · intro j hj
    have hmap : (List.range n).map (fun i => entry (refUpdate P L o k) i j)
        = (List.range n).map (fun i => unnormEntry P L o i j * (colSumQ P L o j)⁻¹) := by
      apply List.map_congr_left
      intro i hi
      rw [List.mem_range] at hi
      show ((refUpdate P L o k).getD i []).getD j 0 = _
      rw [refUpdate_entry (by omega) hj, div_eq_mul_inv]
    have hc : colSumQ P L o j = ((List.range n).map (fun i => unnormEntry P L o i j)).sum := by
      unfold colSumQ
      rw [h1]
    rw [hmap, List.sum_map_mul_right, ← hc, mul_inv_cancel₀ (hS j hj)]
  · intro i hi j hj
    show 0 ≤ ((refUpdate P L o k).getD i []).getD j 0
    rw [refUpdate_entry (by omega) hj]
    apply div_nonneg ?_ (hSnn j hj)
    unfold unnormEntry
    exact mul_nonneg (hPnn i hi j hj) (hLnn i hi o ho)

theorem update_column_stochastic_witness :
    ∃ R : Mat, update [[(1:ℚ)/2],[1/2]] [[4/5,1/5],[1/5,4/5]] ((0:ℕ) : ℤ) = .ok R
      ∧ Mat.WF R 2 1
      ∧ (∀ j, j < 1 →
          ((List.range 2).map (fun i => entry R i j)).sum = 1)
      ∧ (∀ i, i < 2 → ∀ j, j < 1 → 0 ≤ entry R i j) :=
  @update_column_stochastic [[(1:ℚ)/2],[1/2]] [[4/5,1/5],[1/5,4/5]] 2 1 2
    (by unfold Mat.WF; decide) (by unfold Mat.WF; decide) (by decide) 0 (by decide)
    (by intro i hi j hj; interval_cases i <;> interval_cases j <;> norm_num [entry])
    (by intro j hj; interval_cases j; norm_num [entry, List.range_succ])
    (by intro i hi o2 ho2; interval_cases i <;> interval_cases o2 <;> norm_num [entry])
    (by intro j hj; interval_cases j
        norm_num [colSumQ, unnormEntry, entry, List.range_succ])

/-- C3: for every valid initial priors matrix, likelihoods matrix and
true-likelihoods vector, washing_out driven by any list of R uniform draws
returns exactly R + 1 snapshots, the first of which is the initial priors
matrix, and each later snapshot is update of the previous one at some
outcome index in [0, m). With an empty list of draws (reps = 0) this gives
exactly one snapshot, equal to the initial priors matrix. -/
theorem washing_out_trajectory_shape {P L : Mat} {n k m : ℕ} {tl : List ℚ}
    (hP : Mat.WF P n k) (hL : Mat.WF L n m) (hn : 0 < n)
    (htl : tl.length = m) (hsum : 0 < tl.sum) (rands : List ℚ) :
    ∃ traj : List Mat,
      washing_out P L tl rands = .ok traj ∧
      traj.length = rands.length + 1 ∧
      traj.getD 0 [] = P ∧
      ∀ t, t < rands.length → ∃ o : ℕ, o < m ∧
        update (traj.getD t []) L (o : ℤ) = .ok (traj.getD (t + 1) []) := by
  obtain ⟨traj, h1, h2, h3, _, h5, _⟩ := washing_out_ok hL hn htl hsum rands P hP
  exact ⟨traj, h1, h2, h3, h5⟩

theorem washing_out_trajectory_shape_witness :
    ∃ traj : List Mat,
      washing_out [[(1:ℚ)/2],[1/2]] [[4/5,1/5],[1/5,4/5]] [1/2, 1/2] [1/4] = .ok traj ∧
      traj.length = [(1:ℚ)/4].length + 1 ∧
      traj.getD 0 [] = [[(1:ℚ)/2],[1/2]] ∧
      ∀ t, t < [(1:ℚ)/4].length → ∃ o : ℕ, o < 2 ∧
        update (traj.getD t []) [[(4:ℚ)/5,1/5],[1/5,4/5]] (o : ℤ)
          = .ok (traj.getD (t + 1) []) :=
  @washing_out_trajectory_shape [[(1:ℚ)/2],[1/2]] [[4/5,1/5],[1/5,4/5]] 2 1 2 [1/2, 1/2]
    (by unfold Mat.WF; decide) (by unfold Mat.WF; decide) (by decide) (by decide)
    (by norm_num) [1/4]

/-- C4: an agent with a prior of exactly 0 on some hypothesis keeps credence
exactly 0 in it in every snapshot of every washing_out trajectory: the zero
multiplies the likelihood and survives the normalization, so it is
absorbing. -/
theorem zero_prior_absorbing {P L : Mat} {n k m : ℕ} {tl : List ℚ}
    (hP : Mat.WF P n k) (hL : Mat.WF L n m) (hn : 0 < n)
    (htl : tl.length = m) (hsum : 0 < tl.sum) (rands : List ℚ)
    {i j : ℕ} (hi : i < n) (hj : j < k) (h0 : entry P i j = 0) :
    ∃ traj : List Mat,
      washing_out P L tl rands = .ok traj ∧
      ∀ M ∈ traj, entry M i j = 0 := by
  obtain ⟨traj, h1, _, _, _, _, h6⟩ := washing_out_ok hL hn htl hsum rands P hP
  exact ⟨traj, h1, h6 i hi j hj h0⟩

theorem zero_prior_absorbing_witness :
    ∃ traj : List Mat,
      washing_out [[(0:ℚ)],[1]] [[4/5,1/5],[1/5,4/5]] [1/2, 1/2] [1/4, 3/4] = .ok traj ∧
      ∀ M ∈ traj, entry M 0 0 = 0 :=
  @zero_prior_absorbing [[(0:ℚ)],[1]] [[4/5,1/5],[1/5,4/5]] 2 1 2 [1/2, 1/2]
    (by unfold Mat.WF; decide) (by unfold Mat.WF; decide) (by decide) (by decide)
    (by norm_num) [1/4, 3/4] 0 0
    (by decide) (by decide) (by norm_num [entry])

/-- C5 counterexample: the claim says every hypothesis-count mismatch is
detected and fails, but a 2-by-1 priors matrix against a likelihoods matrix
with a single hypothesis row (hypothesis counts 2 and 1) is accepted: numpy
broadcasting stretches the single row and update returns a result. -/
theorem dimension_mismatch_cx :
    update [[(1:ℚ)/2],[1/2]] [[4/5,1/5]] 0 = .ok [[1/2],[1/2]] := by
  norm_num [update, getCol, bmul, colSums]

/-- C5 amended: a hypothesis-count mismatch between the priors and
likelihoods matrices fails with the numpy broadcast error, but only when
neither hypothesis count is 1 (broadcasting silently accepts the mismatch
otherwise); the outcome-count versus true-likelihoods length mismatch is
detected inside random_update and fails with ValueError. -/
theorem dimension_mismatch_detection :
    (∀ (P L : Mat) (o : ℕ), o < (L.headD []).length →
      P.length ≠ L.length → P.length ≠ 1 → L.length ≠ 1 →
      update P L (o : ℤ) = .error .broadcastError)
    ∧ (∀ (P L : Mat) (tl : List ℚ) (r : ℚ), tl.length ≠ (L.headD []).length →
      random_update P L tl r = .error .valueError) := by
  constructor
  · intro P L o ho h1 h2 h3
    have hcol := getCol_ok_raw ho
    have hb : bmul P (L.map (fun row => row.getD o 0)) = .error .broadcastError := by
      unfold bmul
      rw [if_neg (by simpa using h1), if_neg (by simpa using h3), if_neg h2]
    simp only [update, hcol, hb]
  · intro P L tl r h
    simp only [random_update]
    rw [if_pos h]

theorem dimension_mismatch_detection_witness :
    update [[(1:ℚ)/2],[1/2]] [[1,0],[0,1],[1,1]] ((0:ℕ) : ℤ) = .error .broadcastError
    ∧ random_update [[(1:ℚ)/2],[1/2]] [[4/5,1/5],[1/5,4/5]] [1] (1/2)
      = .error .valueError :=
  ⟨dimension_mismatch_detection.1 [[(1:ℚ)/2],[1/2]] [[1,0],[0,1],[1,1]] 0
      (by decide) (by decide) (by decide) (by decide),
    dimension_mismatch_detection.2 [[(1:ℚ)/2],[1/2]] [[4/5,1/5],[1/5,4/5]] [1] (1/2)
      (by decide)⟩

/-- C6 counterexample: the claim says update fails when some agent column of
the unnormalized product sums to zero, but the code performs no such check:
with a prior of 0 on the only hypothesis compatible with the outcome, the
column sum is 0, and update still returns a result (in floating point that
column is NaN, here the 0 of rational division by zero) instead of failing. -/
theorem degenerate_column_cx :
    colSumQ [[(0:ℚ)],[1]] [[1,0],[0,1]] 0 0 = 0
    ∧ update [[(0:ℚ)],[1]] [[1,0],[0,1]] 0 = .ok [[0],[0]] :=
  ⟨by norm_num [colSumQ, unnormEntry, entry, List.range_succ],
    by norm_num [update, getCol, bmul, colSums]⟩

/-- C6 amended: update performs no zero-sum check at all: whenever the
dimensions agree and the outcome index is in range it returns a result, the
degenerate zero-sum columns included (numpy emits NaN entries there rather
than raising). -/
theorem update_returns_on_valid_dims {P L : Mat} {n k m : ℕ} (hP : Mat.WF P n k)
    (hL : Mat.WF L n m) (hn : 0 < n) {o : ℕ} (ho : o < m) :
    ∃ R : Mat, update P L (o : ℤ) = .ok R :=
  ⟨refUpdate P L o k, update_ok hP hL hn ho⟩

theorem update_returns_on_valid_dims_witness :
    ∃ R : Mat, update [[(0:ℚ)],[1]] [[1,0],[0,1]] ((0:ℕ) : ℤ) = .ok R :=
  @update_returns_on_valid_dims [[(0:ℚ)],[1]] [[1,0],[0,1]] 2 1 2
    (by unfold Mat.WF; decide) (by unfold Mat.WF; decide) (by decide) 0 (by decide)

/-- C7 counterexample: the claim says a true-likelihoods vector containing a
negative value makes random_update fail before sampling, but random.choices
only rejects a non-positive total: with weights [-1, 2] (total 1 > 0) no
error is raised, an outcome is sampled and a posterior is returned. -/
theorem negative_weight_cx :
    random_update [[(1:ℚ)/2],[1/2]] [[4/5,1/5],[1/5,4/5]] [-1, 2] (1/2)
      = .ok [[1/5],[4/5]] := by
  norm_num [random_update, cumWeights, accumFrom, bisectRight, bisectAux,
    update, getCol, bmul, colSums]

/-- C7 amended: random_update fails with ValueError before sampling exactly
when the true-likelihoods total is not positive; negative entries whose
total is positive are not rejected. -/
theorem nonpositive_total_rejected (P L : Mat) (tl : List ℚ) (r : ℚ)
    (hlen : tl.length = (L.headD []).length) (hsum : tl.sum ≤ 0) :
    random_update P L tl r = .error .valueError := by
  simp only [random_update]
  rw [if_neg (by omega)]
  have htot : (cumWeights tl).getLastD 0 ≤ 0 := by
    unfold cumWeights
    rw [accumFrom_getLastD tl 0 0]
    rcases eq_or_ne tl [] with h | h
    · simp [h]
    · rw [if_neg h, zero_add]
      exact hsum
  rw [if_pos htot]

theorem nonpositive_total_rejected_witness :
    random_update [[(1:ℚ)/2],[1/2]] [[4/5,1/5],[1/5,4/5]] [0, 0] (1/2)
      = .error .valueError :=
  nonpositive_total_rejected [[(1:ℚ)/2],[1/2]] [[4/5,1/5],[1/5,4/5]] [0, 0] (1/2)
    (by decide) (by norm_num)

/-- C8: updating a uniform prior on two hypotheses with a likelihoods matrix
that assigns the drawn outcome likelihood one half under both hypotheses
leaves the posterior equal to the prior: no information is gained. -/
theorem uniform_update_fixed_point :
    update [[(1:ℚ)/2],[1/2]] [[1/2,1/2],[1/2,1/2]] 0 = .ok [[1/2],[1/2]] := by
  norm_num [update, getCol, bmul, colSums]

theorem scaleAt_length (c : ℚ) : ∀ (j : ℕ) (l : List ℚ), (scaleAt c j l).length = l.length
  | 0, [] => rfl
  | _ + 1, [] => rfl
  | 0, _ :: _ => rfl
  | j + 1, _ :: l => by
    show (scaleAt c j l).length + 1 = _
    rw [scaleAt_length c j l]
    rfl

theorem scaleAt_getD_self (c : ℚ) :
    ∀ (j : ℕ) (l : List ℚ), j < l.length → (scaleAt c j l).getD j 0 = c * l.getD j 0
  | 0, _ :: _, _ => rfl
  | j + 1, _ :: l, h => by
    show (scaleAt c j l).getD j 0 = _
    exact scaleAt_getD_self c j l (by simpa using h)

theorem scaleMat_WF {P : Mat} {n k : ℕ} (hP : Mat.WF P n k) (c : ℚ) :
    Mat.WF (scaleMat c P) n k := by
  constructor
  · simp [scaleMat, hP.1]
  · intro r hr
    unfold scaleMat at hr
    rw [List.mem_map] at hr
    obtain ⟨row, hrow, rfl⟩ := hr
    simp [hP.2 row hrow]

theorem scaleMat_entry {P : Mat} {n k : ℕ} (hP : Mat.WF P n k) (c : ℚ)
    {i j : ℕ} (hi : i < n) (hj : j < k) :
    entry (scaleMat c P) i j = c * entry P i j := by
  have h1 := hP.1
  unfold scaleMat entry
  rw [getD_map_lt (fun row => row.map (fun a => c * a)) [] [] P i (by omega)]
  rw [getD_map_lt (fun a => c * a) 0 0 (P.getD i []) j
    (by rw [hP.2 (P.getD i []) (getD_mem P i (by omega) [])]; omega)]

theorem scaleCol_WF {L : Mat} {n m : ℕ} (hL : Mat.WF L n m) (c : ℚ) (o : ℕ) :
    Mat.WF (L.map (scaleAt c o)) n m := by
  constructor
  · simp [hL.1]
  · intro r hr
    rw [List.mem_map] at hr
    obtain ⟨row, hrow, rfl⟩ := hr
    rw [scaleAt_length c o row]
    exact hL.2 row hrow

theorem scaleCol_entry {L : Mat} {n m : ℕ} (hL : Mat.WF L n m) (c : ℚ)
    {o i : ℕ} (hi : i < n) (ho : o < m) :
    entry (L.map (scaleAt c o)) i o = c * entry L i o := by
  have h1 := hL.1
  unfold entry
  rw [getD_map_lt (scaleAt c o) [] [] L i (by omega)]
  exact scaleAt_getD_self c o (L.getD i [])
    (by rw [hL.2 (L.getD i []) (getD_mem L i (by omega) [])]; omega)

theorem colSumQ_scaleMat {P L : Mat} {n k m : ℕ} (hP : Mat.WF P n k) (_hL : Mat.WF L n m)
    (c : ℚ) {o j : ℕ} (hj : j < k) :
    colSumQ (scaleMat c P) L o j = c * colSumQ P L o j := by
  have h1 := hP.1
  unfold colSumQ
  have hlen : (scaleMat c P).length = P.length := by simp [scaleMat]
  rw [hlen]
  have hmap : (List.range P.length).map (fun i => unnormEntry (scaleMat c P) L o i j)
      = (List.range P.length).map (fun i => c * unnormEntry P L o i j) := by
    apply List.map_congr_left
    intro i hi
    rw [List.mem_range] at hi
    unfold unnormEntry
    rw [scaleMat_entry hP c (by omega) hj]
    ring
  rw [hmap, List.sum_map_mul_left]

theorem colSumQ_scaleCol {P L : Mat} {n k m : ℕ} (hP : Mat.WF P n k) (hL : Mat.WF L n m)
    (c : ℚ) {o j : ℕ} (ho : o < m) (_hj : j < k) :
    colSumQ P (L.map (scaleAt c o)) o j = c * colSumQ P L o j := by
  have h1 := hP.1
  unfold colSumQ
  have hmap : (List.range P.length).map (fun i => unnormEntry P (L.map (scaleAt c o)) o i j)
      = (List.range P.length).map (fun i => c * unnormEntry P L o i j) := by
    apply List.map_congr_left
    intro i hi
    rw [List.mem_range] at hi
    unfold unnormEntry
    rw [scaleCol_entry hL c (by omega) ho]
    ring
  rw [hmap, List.sum_map_mul_left]

/-- C9: update is invariant under scaling all priors by a positive constant,
and likewise under scaling the likelihood column of the drawn outcome by a
positive constant: the common factor cancels in the normalization, so prior
columns need not sum to 1 for the posterior to be well defined. -/
theorem update_scale_invariant {P L : Mat} {n k m : ℕ} (hP : Mat.WF P n k)
    (hL : Mat.WF L n m) (hn : 0 < n) {o : ℕ} (ho : o < m) {c : ℚ} (hc : 0 < c)
    (_hS : ∀ j, j < k → colSumQ P L o j ≠ 0) :
    update (scaleMat c P) L (o : ℤ) = update P L (o : ℤ)
    ∧ update P (L.map (scaleAt c o)) (o : ℤ) = update P L (o : ℤ) := by
  have hcne : c ≠ 0 := ne_of_gt hc
  have h1 := hP.1
  constructor
  · have hPc := scaleMat_WF hP c
    rw [update_ok hPc hL hn ho, update_ok hP hL hn ho]
    have heq : refUpdate (scaleMat c P) L o k = refUpdate P L o k := by
      apply mat_eq_of_entry (hPc.1 ▸ refUpdate_WF (scaleMat c P) L o k)
        (hP.1 ▸ refUpdate_WF P L o k)
      intro i hi j hj
      rw [refUpdate_entry (by rw [hPc.1]; exact hi) hj,
        refUpdate_entry (show i < P.length by omega) hj,
        colSumQ_scaleMat hP hL c hj]
      unfold unnormEntry
      rw [scaleMat_entry hP c hi hj, mul_assoc]
      exact mul_div_mul_left _ _ hcne
    rw [heq]
  · have hLc := scaleCol_WF hL c o
    rw [update_ok hP hLc hn ho, update_ok hP hL hn ho]
    have heq : refUpdate P (L.map (scaleAt c o)) o k = refUpdate P L o k := by
      apply mat_eq_of_entry (hP.1 ▸ refUpdate_WF P (L.map (scaleAt c o)) o k)
        (hP.1 ▸ refUpdate_WF P L o k)
      intro i hi j hj
      rw [refUpdate_entry (show i < P.length by omega) hj,
        refUpdate_entry (show i < P.length by omega) hj,
        colSumQ_scaleCol hP hL c ho hj]
      unfold unnormEntry
      rw [scaleCol_entry hL c hi ho,
        show entry P i j * (c * entry L i o) = c * (entry P i j * entry L i o) by ring]
      exact mul_div_mul_left _ _ hcne
    rw [heq]

theorem update_scale_invariant_witness :
    (update (scaleMat 3 [[(1:ℚ)/2],[1/2]]) [[4/5,1/5],[1/5,4/5]] ((0:ℕ) : ℤ)
      = update [[(1:ℚ)/2],[1/2]] [[4/5,1/5],[1/5,4/5]] ((0:ℕ) : ℤ))
    ∧ (update [[(1:ℚ)/2],[1/2]] ([[(4:ℚ)/5,1/5],[1/5,4/5]].map (scaleAt 3 0)) ((0:ℕ) : ℤ)
      = update [[(1:ℚ)/2],[1/2]] [[4/5,1/5],[1/5,4/5]] ((0:ℕ) : ℤ)) :=
  @update_scale_invariant [[(1:ℚ)/2],[1/2]] [[4/5,1/5],[1/5,4/5]] 2 1 2
    (by unfold Mat.WF; decide) (by unfold Mat.WF; decide) (by decide) 0 (by decide)
    3 (by norm_num)
    (by intro j hj
        interval_cases j
        norm_num [colSumQ, unnormEntry, entry, List.range_succ])

/-- C10: update accepts a negative outcome index o with -m ≤ o < 0 as numpy
fancy indexing does: it selects the column counted from the end, returns the
same result as the index m + o, and produces a result rather than rejecting
the call. -/
theorem negative_outcome_index_wraps {P L : Mat} {n k m : ℕ} (hP : Mat.WF P n k)
    (hL : Mat.WF L n m) (hn : 0 < n) {o : ℤ} (ho1 : -(m : ℤ) ≤ o) (ho2 : o < 0) :
    update P L o = update P L ((m : ℤ) + o)
    ∧ ∃ R : Mat, update P L o = .ok R := by
  have hm := headD_length hL hn
  have hmpos : 0 < (m : ℤ) := by omega
  have hg1 : getCol L o = .ok (L.map (fun row => row.getD ((o + (m : ℤ)).toNat) 0)) := by
    simp only [getCol, hm]
    rw [if_neg (by omega), if_pos ho2]
  have hco : (m : ℤ) + o = o + (m : ℤ) := add_comm _ _
  have hg2 : getCol L ((m : ℤ) + o)
      = .ok (L.map (fun row => row.getD ((o + (m : ℤ)).toNat) 0)) := by
    simp only [getCol, hm]
    rw [if_neg (by omega), if_neg (by omega), hco]
  have heq : update P L o = update P L ((m : ℤ) + o) := by
    unfold update
    rw [hg1, hg2]
  refine ⟨heq, refUpdate P L ((o + (m : ℤ)).toNat) k, ?_⟩
  have htn : (((o + (m : ℤ)).toNat : ℕ) : ℤ) = (m : ℤ) + o := by omega
  rw [heq, ← htn]
  exact update_ok hP hL hn (show (o + (m : ℤ)).toNat < m by omega)

theorem negative_outcome_index_wraps_witness :
    (update [[(1:ℚ)/2],[1/2]] [[4/5,1/5],[1/5,4/5]] (-2)
      = update [[(1:ℚ)/2],[1/2]] [[4/5,1/5],[1/5,4/5]] (((2:ℕ) : ℤ) + (-2)))
    ∧ ∃ R : Mat, update [[(1:ℚ)/2],[1/2]] [[4/5,1/5],[1/5,4/5]] (-2) = .ok R :=
  @negative_outcome_index_wraps [[(1:ℚ)/2],[1/2]] [[4/5,1/5],[1/5,4/5]] 2 1 2
    (by unfold Mat.WF; decide) (by unfold Mat.WF; decide) (by decide) (-2)
    (by decide) (by decide)

